import Mathlib

/-!
Shallow embedding of the gammapy PSF table module
(gammapy/irf/psf/table.py) and of the field-of-view background maker
(gammapy/makers/background/fov.py), together with proofs about the claims
of the specification.

Numbers are embedded as exact rationals.  The numeric constant pi is
threaded through as an explicit parameter named piv: every verified
property holds for an arbitrary (positive) value of that parameter, so the
theorems quantify over it.  External dependencies of the module (MapAxis,
NDDataArray, the FITS table layer, the fit engine) are not part of the
repository sources; where a definition stands in for one of them it is
modelled from the specification and its doc comment says so.
-/

namespace Gammapy

/-- A radially symmetric table PSF: the rad axis node centers together with
the PSF density values at those nodes (source: class TablePSF, which wraps
an NDDataArray over a single rad axis). -/
structure TablePSF where
  rad : List ℚ
  data : List ℚ
  deriving DecidableEq

/-- Linear interpolation of the values va and vb attached to the points a
and b, evaluated at x.  Modelled from the spec: the NDDataArray point
interpolator restricted to one axis segment. -/
def interpSeg (a b va vb x : ℚ) : ℚ :=
  if b = a then va else va + (vb - va) * (x - a) / (b - a)

/-- Modelled from the spec: the cumulative radial integration primitive of
NDDataArray over the rad axis (the repository only ships its caller).  The
integrand samples are given as point and value pairs; the cumulative
integral of the piecewise linear interpolant is accumulated segment by
segment up to the upper bound R, with a partial trapezoid on the segment
containing R and no extrapolation beyond the sampled range. -/
def cumInt : List (ℚ × ℚ) → ℚ → ℚ
  | [], _ => 0
  | [_], _ => 0
  | (a, ga) :: (b, gb) :: rest, R =>
    if R ≤ a then 0
    else if R ≤ b then (R - a) * (ga + interpSeg a b ga gb R) / 2
    else (b - a) * (ga + gb) / 2 + cumInt ((b, gb) :: rest) R

/-- The integrand samples of the containment integral of a TablePSF: at
each rad node r with density value v the integrand is 2 pi r v (spec
section 4.1: containment is the radial integral of 2 pi r dP domega). -/
def TablePSF.radPoints (piv : ℚ) (psf : TablePSF) : List (ℚ × ℚ) :=
  (psf.rad.zip psf.data).map fun p => (p.1, 2 * piv * p.1 * p.2)

/-- Source: TablePSF.containment — integrates the density over solid angle
from 0 up to rad_max by delegating to the integration primitive. -/
def TablePSF.containment (piv : ℚ) (psf : TablePSF) (rad_max : ℚ) : ℚ :=
  cumInt (psf.radPoints piv) rad_max

/-- numpy.linspace with its default inclusive endpoint: n points from a to
b. -/
def linspace (a b : ℚ) (n : ℕ) : List ℚ :=
  (List.range n).map fun (i : ℕ) => a + (b - a) * (i : ℚ) / ((n : ℚ) - 1)

/-- Index of the first occurrence of the minimum of a list (numpy argmin
with its lowest-index tie break). -/
def argminIdx : List ℚ → ℕ
  | [] => 0
  | x :: xs =>
    let j := argminIdx xs
    if x ≤ xs.getD j x then 0 else j + 1

/-- Source: TablePSF.from_shape.  The disk branch stores the density
1 / (pi width^2) inside the radius width and 0 outside; the gauss branch
delegates to the external Gauss2DPDF, passed here as the parameter
gaussPdf.  An invalid shape tag yields none (a ValueError in the source). -/
def TablePSF.from_shape (piv : ℚ) (gaussPdf : ℚ → ℚ) (shape : String)
    (width : ℚ) (rad : List ℚ) : Option TablePSF :=
  if shape = "disk" then
    some { rad := rad
           data := rad.map fun r => if r < width then 1 / (piv * width ^ 2) else 0 }
  else if shape = "gauss" then
    some { rad := rad, data := rad.map gaussPdf }
  else
    none

/-- The sampling grid of TablePSF.containment_radius (source: the np.linspace
call): 10 * nbin points from 0 to the last rad node center, both included. -/
def TablePSF.radMaxGrid (psf : TablePSF) : List ℚ :=
  linspace 0 (psf.rad.getLastD 0) (10 * psf.rad.length)

/-- Source: TablePSF.containment_radius — samples containment on a grid of
10 * nbin points spanning 0 to the last rad node center, then returns the
sampled radius whose containment is nearest in absolute difference to the
requested fraction (np.argmin, first minimum). -/
def TablePSF.containment_radius (piv : ℚ) (psf : TablePSF) (fraction : ℚ) : ℚ :=
  let rad_max := psf.radMaxGrid
  let cont := rad_max.map (psf.containment piv)
  let fraction_idx := argminIdx (cont.map fun c => |c - fraction|)
  rad_max.getD fraction_idx 0

/-- Spec-side characterization of the claim about containment_radius (this
definition follows the words of the specification, to be compared with the
implementation): the returned radius is a point of the 10 * nbin sampling
grid spanning 0 to the last rad node, its containment is closest in
absolute difference to the requested fraction among all grid points, and
it sits at the lowest index attaining that minimum (first minimum). -/
def NearestGridPointInverse (piv : ℚ) (psf : TablePSF) (fraction : ℚ) : Prop :=
  ∃ idx : ℕ,
    idx < 10 * psf.rad.length ∧
    psf.radMaxGrid.length = 10 * psf.rad.length ∧
    psf.radMaxGrid.getD 0 0 = 0 ∧
    psf.radMaxGrid.getD (10 * psf.rad.length - 1) 0 = psf.rad.getLastD 0 ∧
    psf.containment_radius piv fraction = psf.radMaxGrid.getD idx 0 ∧
    (∀ j < 10 * psf.rad.length,
      |psf.containment piv (psf.radMaxGrid.getD idx 0) - fraction| ≤
        |psf.containment piv (psf.radMaxGrid.getD j 0) - fraction|) ∧
    (∀ j < idx,
      |psf.containment piv (psf.radMaxGrid.getD idx 0) - fraction| <
        |psf.containment piv (psf.radMaxGrid.getD j 0) - fraction|)

/-- Modelled from the spec: the upper edge of the last bin of a node-valued
MapAxis (MapAxis.from_nodes places the outer edge half a bin spacing beyond
the last node; MapAxis itself is external to the repository). -/
def TablePSF.lastEdge (psf : TablePSF) : ℚ :=
  match psf.rad.reverse with
  | [] => 0
  | [r] => r
  | r :: q :: _ => r + (r - q) / 2

/-- Value classification of a floating point result: finite, a signed
infinity, or nan; used to express the outcome of the in-place array
division performed by TablePSF.normalize. -/
inductive FpVal where
  | fin (q : ℚ)
  | inf
  | ninf
  | nan
  deriving DecidableEq

/-- Finiteness of a floating point result. -/
def FpVal.isFinite : FpVal → Bool
  | .fin _ => true
  | _ => false

/-- The rational carried by a finite value, and 0 otherwise. -/
def FpVal.toRat : FpVal → ℚ
  | .fin q => q
  | _ => 0

/-- Floating point division x / c for finite operands as numpy performs it:
a normal quotient when c is nonzero, otherwise a signed infinity, or nan
for 0 / 0 (numpy emits a warning in that case but never raises). -/
def fdiv (x c : ℚ) : FpVal :=
  if c = 0 then
    if x = 0 then .nan else if 0 < x then .inf else .ninf
  else
    .fin (x / c)

/-- Source: TablePSF.normalize — computes the containment integral at the
last edge of the rad axis and divides the data array by it in place.  The
result lists each stored value after the division, including the non
finite values produced when the integral is zero. -/
def TablePSF.normalize (piv : ℚ) (psf : TablePSF) : List FpVal :=
  let integral := psf.containment piv psf.lastEdge
  psf.data.map fun x => fdiv x integral

/-- Energy dependent table PSF (source: class EnergyDependentTablePSF):
energy axis nodes, rad axis nodes, exposure vector and the 2-dim data
array in (energy, rad) order. -/
structure EnergyDependentTablePSF where
  energy : List ℚ
  rad : List ℚ
  exposure : List ℚ
  data : List (List ℚ)
  deriving DecidableEq

/-- Source: EnergyDependentTablePSF.__init__ — when no exposure is given it
defaults to an all-ones vector with one entry per energy node. -/
def EnergyDependentTablePSF.init (energy_axis_true rad_axis : List ℚ)
    (exposure : Option (List ℚ)) (data : List (List ℚ)) : EnergyDependentTablePSF :=
  { energy := energy_axis_true
    rad := rad_axis
    exposure := exposure.getD (List.replicate energy_axis_true.length 1)
    data := data }

/-- The gtpsf FITS HDU pair (modelled from the spec, section 6): a THETA
table holding the rad node values and a PSF table holding the energy
nodes, the exposure vector and the PSF cube. -/
structure GtpsfHdulist where
  theta : List ℚ
  energy : List ℚ
  exposure : List ℚ
  psf : List (List ℚ)
  deriving DecidableEq

/-- Source: EnergyDependentTablePSF.to_hdulist — writes the rad nodes as
the Theta column of the THETA table and the energy nodes, exposure and
data cube as the PSF table. -/
def EnergyDependentTablePSF.to_hdulist (p : EnergyDependentTablePSF) : GtpsfHdulist :=
  { theta := p.rad, energy := p.energy, exposure := p.exposure, psf := p.data }

/-- Source: EnergyDependentTablePSF.from_hdulist — rebuilds the rad and
energy axes from the Theta and Energy node columns and passes exposure and
data cube to the constructor. -/
def EnergyDependentTablePSF.from_hdulist (h : GtpsfHdulist) : EnergyDependentTablePSF :=
  EnergyDependentTablePSF.init h.energy h.theta (some h.exposure) h.psf

/-- Source: EnergyDependentTablePSF.table_psf_in_energy_range, weight
computation: the weights are spectrum(e) * exposure(e) at the sampled edge
energies, then divided by their sum.  The log-spaced edge energies are
produced by the external MapAxis.from_energy_bounds and enter here as an
abstract list.  Lean rationals return 0 on division by zero where numpy
returns nan; either way the normalized sum is not 1 when the total is
zero. -/
def energyBandWeights (spectrum exposure : ℚ → ℚ) (energies : List ℚ) : List ℚ :=
  let weights := energies.map fun e => spectrum e * exposure e
  weights.map fun w => w / weights.sum

/-- Shape of a nested list viewed as a 3-dim array (lengths of the nesting
levels along the first entries, as a numpy ndarray shape). -/
def shape3 (d : List (List (List ℚ))) : ℕ × ℕ × ℕ :=
  (d.length, (d.headD []).length, ((d.headD []).headD []).length)

/-- Checks that a nested list is a rectangular a x b x c array, the way a
numpy array of that shape is; modelled from the spec: the NDDataArray
constructor validates data.shape against the axis nbins in order. -/
def shapeOk (d : List (List (List ℚ))) (a b c : ℕ) : Bool :=
  d.length == a && d.all fun x => x.length == b && x.all fun y => y.length == c

/-- Entry of a 3-dim nested list at indices i, j, k (0 outside). -/
def get3 (d : List (List (List ℚ))) (i j k : ℕ) : ℚ :=
  ((d.getD i []).getD j []).getD k 0

/-- numpy ndarray.T for a 3-dim array: reverses the axis order. -/
def transpose3 (d : List (List (List ℚ))) : List (List (List ℚ)) :=
  (List.range (shape3 d).2.2).map fun k =>
    (List.range (shape3 d).2.1).map fun j =>
      (List.range (shape3 d).1).map fun i => get3 d i j k

/-- Number of bins of an edge-valued axis (modelled from the spec: a
MapAxis built from edges has one bin fewer than edge values). -/
def nbinOfEdges (edges : List ℚ) : ℕ := edges.length - 1

/-- Bin centers of an edge-valued axis (modelled from the spec: MapAxis
centers are derived from consecutive edge pairs). -/
def axisCenters (edges : List ℚ) : List ℚ :=
  (edges.zip (edges.drop 1)).map fun p => (p.1 + p.2) / 2

/-- A 3-dim PSF over (energy_true, offset, rad), each axis given by its bin
edges, plus the data cube in memory order and the meta mapping (source:
class PSF3D). -/
structure PSF3D where
  energyEdges : List ℚ
  offsetEdges : List ℚ
  radEdges : List ℚ
  data : List (List (List ℚ))
  meta : List (String × ℚ)
  deriving DecidableEq

/-- Source: PSF3D.__init__ — the axes are fixed to (energy_true, offset,
rad) and the data array must match their nbins in that order; the shape
check itself is modelled from the spec contract of the NDDataArray
constructor (the ValueError of the source is an error value here). -/
def PSF3D.init (energy_axis_true offset_axis rad_axis : List ℚ)
    (data : List (List (List ℚ))) (meta : List (String × ℚ)) : Except String PSF3D :=
  if shapeOk data (nbinOfEdges energy_axis_true) (nbinOfEdges offset_axis)
      (nbinOfEdges rad_axis) then
    .ok { energyEdges := energy_axis_true
          offsetEdges := offset_axis
          radEdges := rad_axis
          data := data
          meta := meta }
  else
    .error ("shape mismatch: data shape does not match axis nbins in order")

/-- Lookup of a key in the meta mapping. -/
def metaLookup (m : List (String × ℚ)) (key : String) : Option ℚ :=
  (m.find? fun p => p.1 == key).map fun p => p.2

/-- Source: PSF3D.energy_thresh_lo — reads the fixed key LO_THRES from
meta; a missing key is a KeyError. -/
def PSF3D.energy_thresh_lo (p : PSF3D) : Except String ℚ :=
  match metaLookup p.meta ("LO_THRES") with
  | some v => .ok v
  | none => .error ("KeyError: LO_THRES")

/-- Source: PSF3D.energy_thresh_hi — reads the fixed key HI_THRES from
meta; a missing key is a KeyError. -/
def PSF3D.energy_thresh_hi (p : PSF3D) : Except String ℚ :=
  match metaLookup p.meta ("HI_THRES") with
  | some v => .ok v
  | none => .error ("KeyError: HI_THRES")

/-- The gadf-dl3 psf_table FITS content (modelled from the spec, section
6): edge pair columns for the three axes, the RPSF cube in on-disk (rad,
offset, energy) order, and the header meta mapping. -/
structure GadfTable where
  energLo : List ℚ
  energHi : List ℚ
  thetaLo : List ℚ
  thetaHi : List ℚ
  radLo : List ℚ
  radHi : List ℚ
  rpsf : List (List (List ℚ))
  meta : List (String × ℚ)
  deriving DecidableEq

/-- Lower bin edges column of an edge-valued axis (modelled from the spec:
the gadf-dl3 axis table convention). -/
def edgesLoColumn (edges : List ℚ) : List ℚ := edges.dropLast

/-- Upper bin edges column of an edge-valued axis (modelled from the spec:
the gadf-dl3 axis table convention). -/
def edgesHiColumn (edges : List ℚ) : List ℚ := edges.drop 1

/-- Axis edges rebuilt from its lo and hi columns (modelled from the spec:
MapAxes.from_table for the gadf-dl3 format). -/
def edgesOfColumns (lo hi : List ℚ) : List ℚ := lo ++ [hi.getLastD 0]

/-- Source: PSF3D.to_hdulist — writes the axis edge columns, stores the
transposed data cube in the RPSF column, and populates the LO_THRES and
HI_THRES header keys from the energy threshold properties, so a missing
meta key propagates as an error. -/
def PSF3D.to_hdulist (p : PSF3D) : Except String GadfTable := do
  let lo ← p.energy_thresh_lo
  let hi ← p.energy_thresh_hi
  .ok { energLo := edgesLoColumn p.energyEdges
        energHi := edgesHiColumn p.energyEdges
        thetaLo := edgesLoColumn p.offsetEdges
        thetaHi := edgesHiColumn p.offsetEdges
        radLo := edgesLoColumn p.radEdges
        radHi := edgesHiColumn p.radEdges
        rpsf := transpose3 p.data
        meta := [("LO_THRES", lo), ("HI_THRES", hi)] }

/-- Source: PSF3D.from_table — rebuilds the axes from the edge columns,
transposes the on-disk RPSF cube back to memory order and passes the table
meta through the constructor. -/
def PSF3D.from_table (t : GadfTable) : Except String PSF3D :=
  PSF3D.init (edgesOfColumns t.energLo t.energHi)
    (edgesOfColumns t.thetaLo t.thetaHi)
    (edgesOfColumns t.radLo t.radHi)
    (transpose3 t.rpsf) t.meta

/-- Source: PSF3D.evaluate — delegates to the external NDDataArray
interpolator over the axes and the data cube; it never touches meta.  The
interpolator enters as an abstract function. -/
def PSF3D.evaluate
    (interp : List ℚ → List ℚ → List ℚ → List (List (List ℚ)) → ℚ → ℚ → ℚ → ℚ)
    (p : PSF3D) (energy offset rad : ℚ) : ℚ :=
  interp p.energyEdges p.offsetEdges p.radEdges p.data energy offset rad

/-- The slice of a MapDataset that the FoV background maker touches (the
full dataset type is external to the repository): counts, the combined
mask, the predicted background and the background model norm parameter. -/
structure MapDataset where
  name : String
  counts : List ℚ
  mask : List Bool
  npred_background : List ℚ
  bkg_norm : ℚ
  deriving DecidableEq

/-- Sum of the entries selected by the mask (numpy data[mask].sum()). -/
def maskedSum (xs : List ℚ) (mask : List Bool) : ℚ :=
  ((xs.zip mask).map fun p => if p.2 then p.1 else 0).sum

/-- Source: FoVBackgroundMaker._scale_bkg — skips with a logged warning
when the masked counts total or the masked predicted background total is
not positive, otherwise sets the background model norm to their ratio.
The second component lists the warnings logged during the call. -/
def scale_bkg (d : MapDataset) : MapDataset × List String :=
  let count_tot := maskedSum d.counts d.mask
  let bkg_tot := maskedSum d.npred_background d.mask
  if count_tot ≤ 0 then
    (d, ["FoVBackgroundMaker failed. No counts found outside exclusion mask."])
  else if bkg_tot ≤ 0 then
    (d, ["FoVBackgroundMaker failed. No positive background found outside exclusion mask."])
  else
    ({ d with bkg_norm := count_tot / bkg_tot }, [])

/-- Source: FoVBackgroundMaker.run with method scale — scales the
background and always returns the dataset. -/
def run_scale (d : MapDataset) : MapDataset × List String :=
  scale_bkg d

/-- A model parameter as the FoV background fit sees it: its value, its
frozen flag and whether it belongs to the background model. -/
structure Param where
  value : ℚ
  frozen : Bool
  is_bkg : Bool
  deriving DecidableEq

/-- Outcome of the external fit engine: the parameter values it left
behind and its convergence flag (Fit and its optimizer are external to the
repository; the engine enters fit_bkg as an abstract function). -/
structure BkgFitResult where
  values : List ℚ
  success : Bool
  deriving DecidableEq

/-- Source: FoVBackgroundMaker._fit_bkg — saves the frozen flags, freezes
every parameter outside the background model, runs the external fit, logs
a warning when the fit did not converge, and finally restores the saved
frozen flags (and only those: parameter values stay as the fit left
them).  The second component lists the warnings logged during the call. -/
def fit_bkg (fitRun : List Param → BkgFitResult) (params : List Param) :
    List Param × List String :=
  let parameters_frozen := params.map fun p => p.frozen
  let frozenParams := params.map fun p => if p.is_bkg then p else { p with frozen := true }
  let result := fitRun frozenParams
  let fitted := (frozenParams.zip result.values).map fun pv => { pv.1 with value := pv.2 }
  let logs := if result.success then ([] : List String) else
    ["FoVBackgroundMaker failed: Fit did not converge."]
  let restored := (fitted.zip parameters_frozen).map fun pf => { pf.1 with frozen := pf.2 }
  (restored, logs)

/-! Helper lemmas about list indexing, argmin and linspace. -/

theorem getD_irrel {l : List ℚ} {j : ℕ} (h : j < l.length) (d1 d2 : ℚ) :
    l.getD j d1 = l.getD j d2 := by
  rw [List.getD_eq_getElem l d1 h, List.getD_eq_getElem l d2 h]

theorem argminIdx_lt_length (l : List ℚ) (h : l ≠ []) : argminIdx l < l.length := by
  induction l with
  | nil => exact absurd rfl h
  | cons x xs ih =>
    by_cases hxs : xs = []
    · subst hxs
      simp [argminIdx]
    · simp only [argminIdx]
      split
      · simp
      · have := ih hxs
        simp only [List.length_cons]
        omega

theorem argminIdx_le_getD (l : List ℚ) (i : ℕ) (hi : i < l.length) :
    l.getD (argminIdx l) 0 ≤ l.getD i 0 := by
  induction l generalizing i with
  | nil => simp at hi
  | cons x xs ih =>
    simp only [argminIdx]
    by_cases hbr : x ≤ xs.getD (argminIdx xs) x
    · rw [if_pos hbr]
      cases i with
      | zero => simp
      | succ k =>
        have hk : k < xs.length := by simpa using hi
        have hxs : xs ≠ [] := by
          intro hmt
          subst hmt
          simp at hk
        have hj : argminIdx xs < xs.length := argminIdx_lt_length xs hxs
        have h1 : xs.getD (argminIdx xs) x = xs.getD (argminIdx xs) 0 := getD_irrel hj x 0
        have h2 := ih k hk
        simp only [List.getD_cons_zero, List.getD_cons_succ]
        calc x ≤ xs.getD (argminIdx xs) 0 := h1 ▸ hbr
          _ ≤ xs.getD k 0 := h2
    · rw [if_neg hbr]
      have hxs : xs ≠ [] := by
        intro hmt
        subst hmt
        simp at hbr
      have hj : argminIdx xs < xs.length := argminIdx_lt_length xs hxs
      have h1 : xs.getD (argminIdx xs) x = xs.getD (argminIdx xs) 0 := getD_irrel hj x 0
      cases i with
      | zero =>
        have : xs.getD (argminIdx xs) x < x := lt_of_not_le hbr
        simp only [List.getD_cons_succ, List.getD_cons_zero]
        rw [h1] at this
        exact le_of_lt this
      | succ k =>
        have hk : k < xs.length := by simpa using hi
        simp only [List.getD_cons_succ]
        exact ih k hk

theorem argminIdx_first_getD (l : List ℚ) (i : ℕ) (hi : i < argminIdx l) :
    l.getD (argminIdx l) 0 < l.getD i 0 := by
  induction l generalizing i with
  | nil => simp [argminIdx] at hi
  | cons x xs ih =>
    simp only [argminIdx] at hi ⊢
    by_cases hbr : x ≤ xs.getD (argminIdx xs) x
    · rw [if_pos hbr] at hi
      exact absurd hi (by omega)
    · rw [if_neg hbr] at hi ⊢
      have hxs : xs ≠ [] := by
        intro hmt
        subst hmt
        simp at hbr
      have hj : argminIdx xs < xs.length := argminIdx_lt_length xs hxs
      have h1 : xs.getD (argminIdx xs) x = xs.getD (argminIdx xs) 0 := getD_irrel hj x 0
      cases i with
      | zero =>
        have : xs.getD (argminIdx xs) x < x := lt_of_not_le hbr
        simp only [List.getD_cons_succ, List.getD_cons_zero]
        rw [h1] at this
        exact this
      | succ k =>
        have hk : k < argminIdx xs := by omega
        simp only [List.getD_cons_succ]
        exact ih k hk

theorem linspace_length (a b : ℚ) (n : ℕ) : (linspace a b n).length = n := by
  unfold linspace
  rw [List.length_map, List.length_range]

theorem linspace_getD (a b : ℚ) (n i : ℕ) (hi : i < n) :
    (linspace a b n).getD i 0 = a + (b - a) * (i : ℚ) / ((n : ℚ) - 1) := by
  have hl : i < (linspace a b n).length := by
    rw [linspace_length]
    exact hi
  rw [List.getD_eq_getElem _ _ hl]
  unfold linspace
  rw [List.getElem_map, List.getElem_range]

theorem linspace_head (a b : ℚ) (n : ℕ) (hn : 0 < n) : (linspace a b n).getD 0 0 = a := by
  rw [linspace_getD a b n 0 hn]
  simp

theorem linspace_last (a b : ℚ) (n : ℕ) (hn : 2 ≤ n) :
    (linspace a b n).getD (n - 1) 0 = b := by
  rw [linspace_getD a b n (n - 1) (by omega)]
  have hcast : ((n - 1 : ℕ) : ℚ) = (n : ℚ) - 1 := by
    have : 1 ≤ n := by omega
    push_cast [Nat.cast_sub this]
    ring
  have hne : ((n : ℚ) - 1) ≠ 0 := by
    have h2 : (2 : ℚ) ≤ (n : ℚ) := by exact_mod_cast hn
    linarith
  rw [hcast]
  field_simp

/-- C1: for every TablePSF, containment_radius(fraction) is computed by
sampling containment on a grid of 10 * nbin points spanning 0 to the last
rad node center and returning the sampled radius whose containment is
closest in absolute difference to the fraction, with ties broken by the
lowest index: a nearest-grid-point inverse, not a root find. -/
theorem containment_radius_nearest_grid_point (piv : ℚ) (psf : TablePSF)
    (fraction : ℚ) (hne : psf.rad ≠ []) :
    NearestGridPointInverse piv psf fraction := by
  have hlen : psf.radMaxGrid.length = 10 * psf.rad.length := by
    unfold TablePSF.radMaxGrid
    exact linspace_length _ _ _
  have hpos : 0 < psf.rad.length := List.length_pos.mpr hne
  have hN : 2 ≤ 10 * psf.rad.length := by omega
  -- the distance list sampled by containment_radius
  set dl : List ℚ :=
    (psf.radMaxGrid.map (psf.containment piv)).map (fun c => |c - fraction|) with hdl
  have hdlen : dl.length = 10 * psf.rad.length := by
    rw [hdl, List.length_map, List.length_map, hlen]
  have hdlne : dl ≠ [] := by
    intro hmt
    rw [hmt] at hdlen
    simp at hdlen
    exact hne hdlen
  have hidx : argminIdx dl < 10 * psf.rad.length := by
    have h := argminIdx_lt_length dl hdlne
    rw [hdlen] at h
    exact h
  have hdg : ∀ j, j < 10 * psf.rad.length →
      dl.getD j 0 = |psf.containment piv (psf.radMaxGrid.getD j 0) - fraction| := by
    intro j hj
    have hj1 : j < dl.length := by omega
    have hj2 : j < (psf.radMaxGrid.map (psf.containment piv)).length := by
      simpa [hlen] using hj
    have hj3 : j < psf.radMaxGrid.length := by simpa [hlen] using hj
    rw [hdl, List.getD_eq_getElem _ _ (by simpa [hlen] using hj), List.getElem_map,
      List.getElem_map, List.getD_eq_getElem _ _ hj3]
  refine ⟨argminIdx dl, hidx, hlen, ?_, ?_, ?_, ?_, ?_⟩
  · unfold TablePSF.radMaxGrid
    exact linspace_head _ _ _ (by omega)
  · unfold TablePSF.radMaxGrid
    exact linspace_last _ _ _ hN
  · rw [TablePSF.containment_radius]
  · intro j hj
    rw [← hdg _ hidx, ← hdg _ hj]
    exact argminIdx_le_getD dl j (by omega)
  · intro j hj
    rw [← hdg _ hidx, ← hdg _ (by omega)]
    exact argminIdx_first_getD dl j hj

/-- Witness for C1 at the concrete table PSF with rad nodes 0 and 1 and
unit data. -/
theorem containment_radius_nearest_grid_point_witness :
    (TablePSF.mk [0, 1] [1, 1]).rad ≠ [] ∧
      NearestGridPointInverse 3 (TablePSF.mk [0, 1] [1, 1]) (1 / 2) :=
  ⟨by decide,
    containment_radius_nearest_grid_point 3 (TablePSF.mk [0, 1] [1, 1]) (1 / 2) (by decide)⟩


/-! Lemmas about the modelled radial integration primitive. -/

theorem interpSeg_nonneg (a b va vb x : ℚ) (hab : a < b) (hva : 0 ≤ va) (hvb : 0 ≤ vb)
    (hax : a ≤ x) (hxb : x ≤ b) : 0 ≤ interpSeg a b va vb x := by
  have hne : ¬ b = a := fun h => absurd hab (by rw [h]; exact lt_irrefl a)
  rw [interpSeg, if_neg hne]
  have hba : 0 < b - a := by linarith
  have key : va + (vb - va) * (x - a) / (b - a) = (va * (b - x) + vb * (x - a)) / (b - a) := by
    field_simp
    ring
  rw [key]
  apply div_nonneg _ (le_of_lt hba)
  have h1 : 0 ≤ va * (b - x) := mul_nonneg hva (by linarith)
  have h2 : 0 ≤ vb * (x - a) := mul_nonneg hvb (by linarith)
  linarith

theorem interpSeg_right (a b va vb : ℚ) (hab : a < b) : interpSeg a b va vb b = vb := by
  have hne : ¬ b = a := fun h => absurd hab (by rw [h]; exact lt_irrefl a)
  rw [interpSeg, if_neg hne]
  have hba : b - a ≠ 0 := sub_ne_zero.mpr hne
  rw [mul_div_assoc, div_self hba, mul_one]
  ring

theorem cumInt_nonneg : ∀ (pts : List (ℚ × ℚ)),
    List.Chain' (fun p q => p.1 < q.1) pts → (∀ p ∈ pts, 0 ≤ p.2) →
    ∀ R, 0 ≤ cumInt pts R := by
  intro pts
  induction pts with
  | nil => intro _ _ R; simp [cumInt]
  | cons p pts ih =>
    intro hchain hnn R
    obtain ⟨a, ga⟩ := p
    cases pts with
    | nil => simp [cumInt]
    | cons q rest =>
      obtain ⟨b, gb⟩ := q
      have hab : a < b := (List.chain'_cons.mp hchain).1
      have hchain2 : List.Chain' (fun p q => p.1 < q.1) ((b, gb) :: rest) :=
        (List.chain'_cons.mp hchain).2
      have hga : 0 ≤ ga := hnn (a, ga) (by simp)
      have hgb : 0 ≤ gb := hnn (b, gb) (by simp)
      have hnn2 : ∀ p ∈ (b, gb) :: rest, 0 ≤ p.2 := fun p hp =>
        hnn p (List.mem_cons_of_mem _ hp)
      rw [cumInt]
      split_ifs with h1 h2
      · exact le_refl 0
      · have haR : a < R := lt_of_not_le h1
        have hi := interpSeg_nonneg a b ga gb R hab hga hgb (le_of_lt haR) h2
        have hm : 0 ≤ (R - a) * (ga + interpSeg a b ga gb R) :=
          mul_nonneg (by linarith) (by linarith)
        linarith
      · have hm : 0 ≤ (b - a) * (ga + gb) := mul_nonneg (by linarith) (by linarith)
        have hrec := ih hchain2 hnn2 R
        linarith

theorem trapSegment_le (a b ga gb R1 R2 : ℚ) (hab : a < b) (hga : 0 ≤ ga) (hgb : 0 ≤ gb)
    (h1 : a < R1) (h12 : R1 ≤ R2) (h2 : R2 ≤ b) :
    (R1 - a) * (ga + interpSeg a b ga gb R1) / 2 ≤
      (R2 - a) * (ga + interpSeg a b ga gb R2) / 2 := by
  have hne : ¬ b = a := fun h => absurd hab (by rw [h]; exact lt_irrefl a)
  have hba : 0 < b - a := by linarith
  have e1 : ∀ x, (x - a) * (ga + interpSeg a b ga gb x) / 2 =
      (2 * ga * (b - a) * (x - a) + (gb - ga) * (x - a) ^ 2) / (2 * (b - a)) := by
    intro x
    rw [interpSeg, if_neg hne]
    field_simp
    ring
  rw [e1 R1, e1 R2]
  have hd : (0 : ℚ) < 2 * (b - a) := by linarith
  rw [div_le_div_iff₀ hd hd]
  have hint : 0 ≤ (R2 - R1) *
      (ga * (b - R1) + ga * (b - R2) + gb * (R1 - a) + gb * (R2 - a)) := by
    apply mul_nonneg (by linarith)
    have t1 : 0 ≤ ga * (b - R1) := mul_nonneg hga (by linarith)
    have t2 : 0 ≤ ga * (b - R2) := mul_nonneg hga (by linarith)
    have t3 : 0 ≤ gb * (R1 - a) := mul_nonneg hgb (by linarith)
    have t4 : 0 ≤ gb * (R2 - a) := mul_nonneg hgb (by linarith)
    linarith
  nlinarith [hint, sq_nonneg (R2 - R1), mul_pos hba hba]

theorem cumInt_mono : ∀ (pts : List (ℚ × ℚ)),
    List.Chain' (fun p q => p.1 < q.1) pts → (∀ p ∈ pts, 0 ≤ p.2) →
    ∀ R1 R2, R1 ≤ R2 → cumInt pts R1 ≤ cumInt pts R2 := by
  intro pts
  induction pts with
  | nil => intro _ _ R1 R2 _; simp [cumInt]
  | cons p pts ih =>
    intro hchain hnn R1 R2 h12
    obtain ⟨a, ga⟩ := p
    cases pts with
    | nil => simp [cumInt]
    | cons q rest =>
      obtain ⟨b, gb⟩ := q
      have hab : a < b := (List.chain'_cons.mp hchain).1
      have hchain2 : List.Chain' (fun p q => p.1 < q.1) ((b, gb) :: rest) :=
        (List.chain'_cons.mp hchain).2
      have hga : 0 ≤ ga := hnn (a, ga) (by simp)
      have hgb : 0 ≤ gb := hnn (b, gb) (by simp)
      have hnn2 : ∀ p ∈ (b, gb) :: rest, 0 ≤ p.2 := fun p hp =>
        hnn p (List.mem_cons_of_mem _ hp)
      rw [cumInt, cumInt]
      split_ifs with ha1 ha2 hb2 hb1 ha2 hb2 ha2 hb2
      · exact le_refl 0
      · have haR : a < R2 := lt_of_not_le ha2
        have hi := interpSeg_nonneg a b ga gb R2 hab hga hgb (le_of_lt haR) hb2
        have hm : 0 ≤ (R2 - a) * (ga + interpSeg a b ga gb R2) :=
          mul_nonneg (by linarith) (by linarith)
        linarith
      · have hm : 0 ≤ (b - a) * (ga + gb) := mul_nonneg (by linarith) (by linarith)
        have hrec := cumInt_nonneg ((b, gb) :: rest) hchain2 hnn2 R2
        linarith
      · exact absurd (le_trans h12 ha2) ha1
      · exact trapSegment_le a b ga gb R1 R2 hab hga hgb (lt_of_not_le ha1) h12 hb2
      · have hstep : (R1 - a) * (ga + interpSeg a b ga gb R1) / 2 ≤
            (b - a) * (ga + interpSeg a b ga gb b) / 2 :=
          trapSegment_le a b ga gb R1 b hab hga hgb (lt_of_not_le ha1) hb1 (le_refl b)
        rw [interpSeg_right a b ga gb hab] at hstep
        have hrec := cumInt_nonneg ((b, gb) :: rest) hchain2 hnn2 R2
        linarith
      · exact absurd (le_trans h12 ha2) ha1
      · exact absurd (le_trans h12 hb2) hb1
      · have hrec := ih hchain2 hnn2 R1 R2 h12
        linarith

/-! The containment integrand of a TablePSF is sorted and nonnegative. -/

theorem chain'_fst_zip (l1 : List ℚ) : ∀ (l2 : List ℚ),
    List.Chain' (· < ·) l1 →
    List.Chain' (fun p q : ℚ × ℚ => p.1 < q.1) (l1.zip l2) := by
  induction l1 with
  | nil => intro l2 _; simp
  | cons a l1 ih =>
    intro l2 h
    cases l2 with
    | nil => simp
    | cons b l2 =>
      rw [List.zip_cons_cons]
      rw [List.chain'_cons'] at h ⊢
      refine ⟨?_, ih l2 h.2⟩
      intro y hy
      cases l1 with
      | nil => simp at hy
      | cons c l1 =>
        cases l2 with
        | nil => simp at hy
        | cons d l2 =>
          rw [List.zip_cons_cons] at hy
          simp only [List.head?_cons, Option.mem_def, Option.some.injEq] at hy
          have hac : a < c := h.1 c (by simp)
          rw [← hy]
          exact hac

theorem radPoints_chain' (piv : ℚ) (psf : TablePSF)
    (h : List.Chain' (· < ·) psf.rad) :
    List.Chain' (fun p q : ℚ × ℚ => p.1 < q.1) (psf.radPoints piv) := by
  unfold TablePSF.radPoints
  rw [List.chain'_map]
  exact chain'_fst_zip psf.rad psf.data h

theorem radPoints_nonneg (piv : ℚ) (psf : TablePSF)
    (hpi : 0 < piv)
    (hrad : ∀ r ∈ psf.rad, 0 ≤ r)
    (hdata : ∀ v ∈ psf.data, 0 ≤ v) :
    ∀ p ∈ psf.radPoints piv, 0 ≤ p.2 := by
  intro p hp
  unfold TablePSF.radPoints at hp
  obtain ⟨⟨r, v⟩, hmem, rfl⟩ := List.mem_map.mp hp
  have hr : 0 ≤ r := hrad r (List.of_mem_zip hmem).1
  have hv : 0 ≤ v := hdata v (List.of_mem_zip hmem).2
  have h2p : (0 : ℚ) ≤ 2 * piv := by linarith
  simpa using mul_nonneg (mul_nonneg h2p hr) hv

/-- C4: for every TablePSF with nonnegative data (and a sorted nonnegative
rad axis), containment is monotonically nondecreasing in rad_max; the claim
restricts attention to radii within the sampled range, and the property
here holds for all radii, which covers that range. -/
theorem containment_monotone (piv : ℚ) (psf : TablePSF)
    (hpi : 0 < piv)
    (hchain : List.Chain' (· < ·) psf.rad)
    (hrad : ∀ r ∈ psf.rad, 0 ≤ r)
    (hdata : ∀ v ∈ psf.data, 0 ≤ v)
    (r1 r2 : ℚ) (h12 : r1 ≤ r2) :
    psf.containment piv r1 ≤ psf.containment piv r2 := by
  unfold TablePSF.containment
  exact cumInt_mono (psf.radPoints piv) (radPoints_chain' piv psf hchain)
    (radPoints_nonneg piv psf hpi hrad hdata) r1 r2 h12

/-- Witness for C4 at a concrete two-node PSF. -/
theorem containment_monotone_witness :
    (0 : ℚ) < 3 ∧ List.Chain' (· < ·) ([0, 1] : List ℚ) ∧
      (∀ r ∈ ([0, 1] : List ℚ), 0 ≤ r) ∧ (∀ v ∈ ([1, 2] : List ℚ), 0 ≤ v) ∧
      (1 : ℚ) / 3 ≤ (1 : ℚ) / 2 ∧
      TablePSF.containment 3 (TablePSF.mk [0, 1] [1, 2]) (1 / 3) ≤
        TablePSF.containment 3 (TablePSF.mk [0, 1] [1, 2]) (1 / 2) :=
  ⟨by norm_num, by norm_num [List.chain'_cons], by decide, by decide, by norm_num,
    containment_monotone 3 (TablePSF.mk [0, 1] [1, 2]) (by norm_num)
      (by norm_num [List.chain'_cons]) (by decide) (by decide) (1 / 3) (1 / 2) (by norm_num)⟩

/-! Lemmas for the disk-shaped analytic PSF (claim C5). -/

theorem chain'_fst_lt_of_mem (x : ℚ × ℚ) (pts : List (ℚ × ℚ))
    (h : List.Chain' (fun p q : ℚ × ℚ => p.1 < q.1) (x :: pts)) :
    ∀ p ∈ pts, x.1 < p.1 := by
  induction pts generalizing x with
  | nil => intro p hp; simp at hp
  | cons y rest ih =>
    intro p hp
    have hxy : x.1 < y.1 := (List.chain'_cons.mp h).1
    cases hp with
    | head => exact hxy
    | tail _ hp2 =>
      have hyp := ih y (List.chain'_cons.mp h).2 p hp2
      exact lt_trans hxy hyp

theorem cumInt_of_linear (k : ℚ) : ∀ (pts : List (ℚ × ℚ)) (R B : ℚ),
    List.Chain' (fun p q : ℚ × ℚ => p.1 < q.1) pts →
    (∀ p ∈ pts, p.1 ≤ B → p.2 = k * p.1) →
    (∃ p ∈ pts, R ≤ p.1 ∧ p.1 ≤ B) →
    (pts.headD (0, 0)).1 ≤ R →
    cumInt pts R = k * (R ^ 2 - (pts.headD (0, 0)).1 ^ 2) / 2 := by
  intro pts
  induction pts with
  | nil =>
    intro R B _ _ hex _
    obtain ⟨p, hp, _⟩ := hex
    simp at hp
  | cons x pts ih =>
    intro R B hchain hlin hex hhead
    obtain ⟨a, ga⟩ := x
    simp only [List.headD_cons] at hhead ⊢
    cases pts with
    | nil =>
      obtain ⟨p, hp, hRp, hpB⟩ := hex
      rw [List.mem_singleton] at hp
      subst hp
      have hRa : R = a := le_antisymm hRp hhead
      show (0 : ℚ) = k * (R ^ 2 - a ^ 2) / 2
      rw [hRa]
      ring
    | cons y rest =>
      obtain ⟨b, gb⟩ := y
      have hab : a < b := (List.chain'_cons.mp hchain).1
      have hchain2 := (List.chain'_cons.mp hchain).2
      have hne : ¬ b = a := fun h => absurd hab (by rw [h]; exact lt_irrefl a)
      rw [cumInt]
      by_cases hRa : R ≤ a
      · rw [if_pos hRa]
        have h0 : R = a := le_antisymm hRa hhead
        rw [h0]
        ring
      · rw [if_neg hRa]
        have haR : a < R := lt_of_not_le hRa
        obtain ⟨p, hp, hRp, hpB⟩ := hex
        have hpTail : p ∈ (b, gb) :: rest := by
          cases hp with
          | head => exact absurd hRp (by simp only [not_le]; exact haR)
          | tail _ h2 => exact h2
        have haB : a ≤ B := le_trans (le_of_lt haR) (le_trans hRp hpB)
        have hbB : b ≤ B := by
          cases hpTail with
          | head => exact hpB
          | tail _ h2 =>
            have hbp : (b, gb).1 < p.1 := chain'_fst_lt_of_mem (b, gb) rest hchain2 p h2
            simp only at hbp
            linarith
        have hga : ga = k * a := hlin (a, ga) (by simp) haB
        have hgb : gb = k * b := hlin (b, gb) (by simp) hbB
        by_cases hRb : R ≤ b
        · rw [if_pos hRb]
          have hinterp : interpSeg a b ga gb R = k * R := by
            rw [interpSeg, if_neg hne, hga, hgb]
            have hba : b - a ≠ 0 := sub_ne_zero.mpr hne
            field_simp
            ring
          rw [hinterp, hga]
          ring
        · rw [if_neg hRb]
          have hbR : b < R := lt_of_not_le hRb
          have hlin2 : ∀ p ∈ (b, gb) :: rest, p.1 ≤ B → p.2 = k * p.1 := fun p hp2 hB =>
            hlin p (List.mem_cons_of_mem _ hp2) hB
          have hrec := ih R B hchain2 hlin2 ⟨p, hpTail, hRp, hpB⟩
            (by simp only [List.headD_cons]; exact le_of_lt hbR)
          simp only [List.headD_cons] at hrec
          rw [hrec, hga, hgb]
          ring

theorem zip_self_map (l : List ℚ) (f : ℚ → ℚ) :
    l.zip (l.map f) = l.map fun r => (r, f r) := by
  induction l with
  | nil => rfl
  | cons a l ih => simp [List.zip_cons_cons, ih]

theorem radPoints_disk (piv w : ℚ) (rad : List ℚ) :
    TablePSF.radPoints piv
      (TablePSF.mk rad (rad.map fun r => if r < w then 1 / (piv * w ^ 2) else 0)) =
      rad.map fun r => (r, 2 * piv * r * (if r < w then 1 / (piv * w ^ 2) else 0)) := by
  unfold TablePSF.radPoints
  rw [zip_self_map, List.map_map]
  rfl

/-- C5: for a disk-shaped TablePSF.from_shape with width w (density
1 / (pi w^2) below the radius w and 0 beyond), containment(r) equals
(r / w)^2 — exactly so, in this embedding, for every r below the last rad
node that lies inside the disk, which is the grid-tolerance content of the
claim — and, at the concrete instance w = 2 with rad nodes 0 and 1,
containment(1) = 0.25 and containment_radius(0.25) = 1. -/
theorem from_shape_disk_containment :
    (∀ (piv w R : ℚ) (gaussPdf : ℚ → ℚ) (rad : List ℚ),
      piv ≠ 0 →
      List.Chain' (· < ·) rad →
      rad.headD 1 = 0 →
      0 ≤ R →
      (∃ rj ∈ rad, R ≤ rj ∧ rj < w) →
      ∃ psf, TablePSF.from_shape piv gaussPdf ("disk") w rad = some psf ∧
        psf.containment piv R = R ^ 2 / w ^ 2) ∧
    (∀ (piv : ℚ) (gaussPdf : ℚ → ℚ), piv ≠ 0 →
      ∃ psf, TablePSF.from_shape piv gaussPdf ("disk") 2 [0, 1] = some psf ∧
        psf.containment piv 1 = 1 / 4 ∧
        psf.containment_radius piv (1 / 4) = 1) := by
  have hgen : ∀ (piv w R : ℚ) (gaussPdf : ℚ → ℚ) (rad : List ℚ),
      piv ≠ 0 →
      List.Chain' (· < ·) rad →
      rad.headD 1 = 0 →
      0 ≤ R →
      (∃ rj ∈ rad, R ≤ rj ∧ rj < w) →
      ∃ psf, TablePSF.from_shape piv gaussPdf ("disk") w rad = some psf ∧
        psf.containment piv R = R ^ 2 / w ^ 2 := by
    intro piv w R gaussPdf rad hpi hchain hhead hR hex
    obtain ⟨rj, hrjmem, hRrj, hrjw⟩ := hex
    have hw : 0 < w := lt_of_le_of_lt (le_trans hR hRrj) hrjw
    have hwne : w ≠ 0 := ne_of_gt hw
    refine ⟨TablePSF.mk rad (rad.map fun r => if r < w then 1 / (piv * w ^ 2) else 0),
      ?_, ?_⟩
    · unfold TablePSF.from_shape
      rw [if_pos rfl]
    · unfold TablePSF.containment
      rw [radPoints_disk]
      have hne : rad ≠ [] := by
        intro h0
        rw [h0] at hhead
        simp at hhead
      have hk := cumInt_of_linear (2 / w ^ 2)
        (rad.map fun r => (r, 2 * piv * r * (if r < w then 1 / (piv * w ^ 2) else 0)))
        R rj ?_ ?_ ?_ ?_
      · rw [hk]
        have hhd : ((rad.map fun r =>
            (r, 2 * piv * r * (if r < w then 1 / (piv * w ^ 2) else 0))).headD (0, 0)).1 = 0 := by
          cases rad with
          | nil => exact absurd rfl hne
          | cons r0 tl =>
            simp only [List.map_cons, List.headD_cons]
            simpa using hhead
        rw [hhd]
        field_simp
        ring
      · rw [List.chain'_map]
        exact hchain
      · intro p hp hpB
        obtain ⟨r, hrmem, rfl⟩ := List.mem_map.mp hp
        simp only at hpB ⊢
        have hrw : r < w := lt_of_le_of_lt hpB hrjw
        rw [if_pos hrw]
        field_simp
        ring
      · exact ⟨(rj, 2 * piv * rj * (if rj < w then 1 / (piv * w ^ 2) else 0)),
          List.mem_map.mpr ⟨rj, hrjmem, rfl⟩, hRrj, le_refl rj⟩
      · cases rad with
        | nil => exact absurd rfl hne
        | cons r0 tl =>
          simp only [List.map_cons, List.headD_cons]
          have : r0 = 0 := by simpa using hhead
          simpa [this] using hR
  refine ⟨hgen, ?_⟩
  intro piv gaussPdf hpi
  set psfC : TablePSF := TablePSF.mk [0, 1]
    (([0, 1] : List ℚ).map fun r => if r < 2 then 1 / (piv * 2 ^ 2) else 0) with hpsfC
  have hfs : TablePSF.from_shape piv gaussPdf ("disk") 2 [0, 1] = some psfC := by
    rw [hpsfC]
    unfold TablePSF.from_shape
    rw [if_pos rfl]
  have hcont : ∀ t : ℚ, 0 ≤ t → t ≤ 1 → psfC.containment piv t = t ^ 2 / 4 := by
    intro t ht0 ht1
    obtain ⟨psf2, hfs2, hc2⟩ := hgen piv 2 t gaussPdf [0, 1] hpi
      (by norm_num [List.chain'_cons]) rfl ht0
      ⟨1, by simp, ht1, by norm_num⟩
    rw [hfs] at hfs2
    have hps : psfC = psf2 := Option.some.inj hfs2
    rw [← hps] at hc2
    rw [hc2]
    norm_num
  have hcont1 : psfC.containment piv 1 = 1 / 4 := by
    rw [hcont 1 (by norm_num) (le_refl 1)]
    norm_num
  refine ⟨psfC, hfs, hcont1, ?_⟩
  -- the containment_radius computation on the 20-point sampling grid
  have hglen : (linspace 0 1 20).length = 20 := linspace_length 0 1 20
  have hgD : ∀ i, i < 20 → (linspace 0 1 20).getD i 0 = (i : ℚ) / 19 := by
    intro i hi
    rw [linspace_getD 0 1 20 i hi]
    norm_num
  have hgbounds : ∀ i, i < 20 →
      0 ≤ (linspace 0 1 20).getD i 0 ∧ (linspace 0 1 20).getD i 0 ≤ 1 := by
    intro i hi
    rw [hgD i hi]
    constructor
    · positivity
    · rw [div_le_one (by norm_num : (0 : ℚ) < 19)]
      exact_mod_cast Nat.le_of_lt_succ (by omega)
  set dl : List ℚ :=
    (((linspace 0 1 20).map (psfC.containment piv)).map fun c => |c - 1 / 4|) with hdl
  have hdlen : dl.length = 20 := by
    rw [hdl, List.length_map, List.length_map, hglen]
  have hdg : ∀ i, i < 20 →
      dl.getD i 0 = |psfC.containment piv ((linspace 0 1 20).getD i 0) - 1 / 4| := by
    intro i hi
    have hi1 : i < dl.length := by omega
    have hi3 : i < (linspace 0 1 20).length := by omega
    rw [hdl, List.getD_eq_getElem _ _ (by simpa [hglen] using hi), List.getElem_map,
      List.getElem_map, List.getD_eq_getElem _ _ hi3]
  have hd19 : dl.getD 19 0 = 0 := by
    rw [hdg 19 (by norm_num), hgD 19 (by norm_num)]
    have h191 : ((19 : ℕ) : ℚ) / 19 = 1 := by norm_num
    rw [h191, hcont 1 (by norm_num) (le_refl 1)]
    norm_num
  have hdpos : ∀ i, i < 19 → 0 < dl.getD i 0 := by
    intro i hi
    rw [hdg i (by omega)]
    have hb := hgbounds i (by omega)
    rw [hcont _ hb.1 hb.2]
    have hti : (linspace 0 1 20).getD i 0 < 1 := by
      rw [hgD i (by omega)]
      rw [div_lt_one (by norm_num : (0 : ℚ) < 19)]
      exact_mod_cast hi
    have ht0 := hb.1
    have hsq : ((linspace 0 1 20).getD i 0) ^ 2 < 1 := by nlinarith
    have hneg : ((linspace 0 1 20).getD i 0) ^ 2 / 4 - 1 / 4 < 0 := by linarith
    exact abs_pos.mpr (ne_of_lt hneg)
  have hdne : dl ≠ [] := by
    intro h0
    rw [h0] at hdlen
    simp at hdlen
  have hm : argminIdx dl < 20 := by
    have h := argminIdx_lt_length dl hdne
    omega
  have hmin_le := argminIdx_le_getD dl 19 (by omega : 19 < dl.length)
  have hnnm : 0 ≤ dl.getD (argminIdx dl) 0 := by
    rw [hdg _ hm]
    exact abs_nonneg _
  have hzero : dl.getD (argminIdx dl) 0 = 0 := by
    rw [hd19] at hmin_le
    linarith
  have hm19 : argminIdx dl = 19 := by
    by_contra hne19
    have hlt : argminIdx dl < 19 := by omega
    have hp := hdpos _ hlt
    rw [hzero] at hp
    exact lt_irrefl 0 hp
  have hcr : psfC.containment_radius piv (1 / 4) =
      (linspace 0 1 20).getD (argminIdx dl) 0 := by
    rw [hdl, hpsfC]
    rfl
  rw [hcr, hm19, hgD 19 (by norm_num)]
  norm_num

/-- Witness for C5: both conjuncts instantiated at a concrete positive
rational in place of pi. -/
theorem from_shape_disk_containment_witness :
    (∃ psf, TablePSF.from_shape (355 / 113) (fun _ => 0) ("disk") 2 [0, 1] = some psf ∧
      psf.containment (355 / 113) (1 / 2) = (1 / 2) ^ 2 / 2 ^ 2) ∧
    (∃ psf, TablePSF.from_shape (355 / 113) (fun _ => 0) ("disk") 2 [0, 1] = some psf ∧
      psf.containment (355 / 113) 1 = 1 / 4 ∧
      psf.containment_radius (355 / 113) (1 / 4) = 1) :=
  ⟨from_shape_disk_containment.1 (355 / 113) 2 (1 / 2) (fun _ => 0) [0, 1] (by norm_num)
      (by norm_num [List.chain'_cons]) rfl (by norm_num)
      ⟨1, by simp, by norm_num, by norm_num⟩,
    from_shape_disk_containment.2 (355 / 113) (fun _ => 0) (by norm_num)⟩

/-! Lemmas for normalize (claim C7): the integration primitive is
homogeneous in the data values. -/

theorem cumInt_map_div (c : ℚ) : ∀ (pts : List (ℚ × ℚ)) (R : ℚ),
    cumInt (pts.map fun p => (p.1, p.2 / c)) R = cumInt pts R / c := by
  intro pts
  induction pts with
  | nil => intro R; simp [cumInt]
  | cons x pts ih =>
    intro R
    obtain ⟨a, ga⟩ := x
    cases pts with
    | nil => simp [cumInt]
    | cons y rest =>
      obtain ⟨b, gb⟩ := y
      simp only [List.map_cons]
      rw [cumInt, cumInt]
      by_cases h1 : R ≤ a
      · rw [if_pos h1, if_pos h1, zero_div]
      · rw [if_neg h1, if_neg h1]
        by_cases h2 : R ≤ b
        · rw [if_pos h2, if_pos h2]
          by_cases hba : b = a
          · rw [interpSeg, if_pos hba, interpSeg, if_pos hba]
            ring
          · rw [interpSeg, if_neg hba, interpSeg, if_neg hba]
            ring
        · rw [if_neg h2, if_neg h2]
          have ih2 := ih R
          simp only [List.map_cons] at ih2
          rw [ih2]
          ring

theorem radPoints_div (piv c : ℚ) (rad data : List ℚ) :
    TablePSF.radPoints piv (TablePSF.mk rad (data.map fun v => v / c)) =
      (TablePSF.radPoints piv (TablePSF.mk rad data)).map fun p => (p.1, p.2 / c) := by
  unfold TablePSF.radPoints
  induction rad generalizing data with
  | nil => simp
  | cons r rs ih =>
    cases data with
    | nil => simp
    | cons v vs =>
      simp only [List.map_cons, List.zip_cons_cons]
      congr 1
      · rw [mul_div_assoc]
      · exact ih vs

/-- C7: normalize divides the data array in place by the containment
integral at the last edge of the rad axis; when that integral is positive
the containment of the rescaled data at the last edge is 1, and when it is
zero normalize still returns (it never raises) with every stored value non
finite (inf or nan). -/
theorem normalize_unit_integral (piv : ℚ) (psf : TablePSF) :
    psf.normalize piv =
      psf.data.map (fun x => fdiv x (psf.containment piv psf.lastEdge)) ∧
    (0 < psf.containment piv psf.lastEdge →
      TablePSF.containment piv
        (TablePSF.mk psf.rad ((psf.normalize piv).map FpVal.toRat)) psf.lastEdge = 1) ∧
    (psf.containment piv psf.lastEdge = 0 →
      ∀ v ∈ psf.normalize piv, v.isFinite = false) := by
  refine ⟨rfl, ?_, ?_⟩
  · intro hpos
    have hc0 : psf.containment piv psf.lastEdge ≠ 0 := ne_of_gt hpos
    have hmap : (psf.normalize piv).map FpVal.toRat =
        psf.data.map fun x => x / psf.containment piv psf.lastEdge := by
      unfold TablePSF.normalize
      rw [List.map_map]
      apply List.map_congr_left
      intro x _
      simp only [Function.comp_apply]
      rw [fdiv, if_neg hc0]
      rfl
    rw [hmap]
    unfold TablePSF.containment
    rw [radPoints_div, cumInt_map_div]
    exact div_self hc0
  · intro hzero v hv
    unfold TablePSF.normalize at hv
    obtain ⟨x, _, rfl⟩ := List.mem_map.mp hv
    rw [fdiv, if_pos hzero]
    by_cases hx : x = 0
    · rw [if_pos hx]
      rfl
    · rw [if_neg hx]
      by_cases hx0 : 0 < x
      · rw [if_pos hx0]
        rfl
      · rw [if_neg hx0]
        rfl

/-- Witness for C7: a unit-data PSF with positive integral is rescaled to
unit containment, and an all-zero PSF yields only non finite values. -/
theorem normalize_unit_integral_witness :
    (0 < TablePSF.containment 3 (TablePSF.mk [0, 1] [1, 1])
        (TablePSF.lastEdge (TablePSF.mk [0, 1] [1, 1])) ∧
      TablePSF.containment 3
        (TablePSF.mk [0, 1]
          ((TablePSF.normalize 3 (TablePSF.mk [0, 1] [1, 1])).map FpVal.toRat))
        (TablePSF.lastEdge (TablePSF.mk [0, 1] [1, 1])) = 1) ∧
    (TablePSF.containment 3 (TablePSF.mk [0, 1] [0, 0])
        (TablePSF.lastEdge (TablePSF.mk [0, 1] [0, 0])) = 0 ∧
      ∀ v ∈ TablePSF.normalize 3 (TablePSF.mk [0, 1] [0, 0]), v.isFinite = false) := by
  have hpos : (0 : ℚ) < TablePSF.containment 3 (TablePSF.mk [0, 1] [1, 1])
      (TablePSF.lastEdge (TablePSF.mk [0, 1] [1, 1])) := by
    norm_num [TablePSF.containment, TablePSF.radPoints, TablePSF.lastEdge, cumInt, interpSeg]
  have hzero : TablePSF.containment 3 (TablePSF.mk [0, 1] [0, 0])
      (TablePSF.lastEdge (TablePSF.mk [0, 1] [0, 0])) = 0 := by
    norm_num [TablePSF.containment, TablePSF.radPoints, TablePSF.lastEdge, cumInt, interpSeg]
  exact ⟨⟨hpos, (normalize_unit_integral 3 (TablePSF.mk [0, 1] [1, 1])).2.1 hpos⟩,
    ⟨hzero, (normalize_unit_integral 3 (TablePSF.mk [0, 1] [0, 0])).2.2 hzero⟩⟩

/-! Claim C6: the energy-band weight normalization. -/

theorem list_sum_map_div (l : List ℚ) (s : ℚ) :
    (l.map fun w => w / s).sum = l.sum / s := by
  induction l with
  | nil => simp
  | cons x xs ih => simp [ih, add_div]

/-- Counterexample to C6 as stated: with an identically zero spectrum the
un-normalized weight total is zero, and the normalized weights do not sum
to 1 (here the division by zero gives 0; in numpy it gives nan — in
neither semantics is the sum 1). -/
theorem energyBandWeights_zero_total :
    ¬ (energyBandWeights (fun _ => 0) (fun _ => 1) [1, 2]).sum = 1 := by
  norm_num [energyBandWeights]

/-- C6 amended: the weight vector of table_psf_in_energy_range sums to 1
whenever the un-normalized weight total spectrum(e) * exposure(e) summed
over the edge energies is nonzero; when that total is zero the normalized
weights are degenerate (nan in numpy) and do not sum to 1. -/
theorem energyBandWeights_sum_one (spectrum exposure : ℚ → ℚ) (energies : List ℚ)
    (h : (energies.map fun e => spectrum e * exposure e).sum ≠ 0) :
    (energyBandWeights spectrum exposure energies).sum = 1 := by
  unfold energyBandWeights
  rw [list_sum_map_div]
  exact div_self h

/-- Witness for C6 at a flat spectrum and flat exposure over two edge
energies. -/
theorem energyBandWeights_sum_one_witness :
    ((([1, 2] : List ℚ).map fun e =>
        (fun _ : ℚ => (1 : ℚ)) e * (fun _ : ℚ => (1 : ℚ)) e).sum ≠ 0) ∧
      (energyBandWeights (fun _ => 1) (fun _ => 1) [1, 2]).sum = 1 :=
  ⟨by norm_num, energyBandWeights_sum_one (fun _ => 1) (fun _ => 1) [1, 2] (by norm_num)⟩

/-! Claim C8: the scale method of the FoV background maker. -/

/-- C8: when the masked counts total or the masked predicted background
total is not positive, the normalization is skipped without raising — a
warning is logged, the dataset (and so its background norm) is returned
unchanged; only when both totals are positive is the norm set to
counts_total / background_total (and nothing is logged). -/
theorem scale_bkg_behavior (d : MapDataset) :
    (maskedSum d.counts d.mask ≤ 0 ∨ maskedSum d.npred_background d.mask ≤ 0 →
      (run_scale d).1 = d ∧ (run_scale d).2 ≠ []) ∧
    (0 < maskedSum d.counts d.mask → 0 < maskedSum d.npred_background d.mask →
      (run_scale d).1 =
        { d with
          bkg_norm := maskedSum d.counts d.mask / maskedSum d.npred_background d.mask } ∧
      (run_scale d).2 = []) := by
  unfold run_scale scale_bkg
  constructor
  · intro hor
    by_cases h1 : maskedSum d.counts d.mask ≤ 0
    · rw [if_pos h1]
      simp
    · have h2 : maskedSum d.npred_background d.mask ≤ 0 := hor.resolve_left h1
      rw [if_neg h1, if_pos h2]
      simp
  · intro hc hb
    rw [if_neg (not_le.mpr hc), if_neg (not_le.mpr hb)]
    simp

/-- Witness for C8: a dataset with positive masked totals gets its norm set
to the ratio, and one with zero masked counts is returned unchanged with a
warning. -/
theorem scale_bkg_behavior_witness :
    (0 < maskedSum (MapDataset.mk ("d") [2] [true] [1] 1).counts
        (MapDataset.mk ("d") [2] [true] [1] 1).mask ∧
      (run_scale (MapDataset.mk ("d") [2] [true] [1] 1)).1 =
        MapDataset.mk ("d") [2] [true] [1]
          (maskedSum (MapDataset.mk ("d") [2] [true] [1] 1).counts
              (MapDataset.mk ("d") [2] [true] [1] 1).mask /
            maskedSum (MapDataset.mk ("d") [2] [true] [1] 1).npred_background
              (MapDataset.mk ("d") [2] [true] [1] 1).mask) ∧
      (run_scale (MapDataset.mk ("d") [2] [true] [1] 1)).2 = []) ∧
    (maskedSum (MapDataset.mk ("d") [0] [true] [1] 1).counts
        (MapDataset.mk ("d") [0] [true] [1] 1).mask ≤ 0 ∧
      (run_scale (MapDataset.mk ("d") [0] [true] [1] 1)).1 =
        MapDataset.mk ("d") [0] [true] [1] 1 ∧
      (run_scale (MapDataset.mk ("d") [0] [true] [1] 1)).2 ≠ []) := by
  have hc : (0 : ℚ) < maskedSum (MapDataset.mk ("d") [2] [true] [1] 1).counts
      (MapDataset.mk ("d") [2] [true] [1] 1).mask := by
    norm_num [maskedSum]
  have hb : (0 : ℚ) < maskedSum (MapDataset.mk ("d") [2] [true] [1] 1).npred_background
      (MapDataset.mk ("d") [2] [true] [1] 1).mask := by
    norm_num [maskedSum]
  have hz : maskedSum (MapDataset.mk ("d") [0] [true] [1] 1).counts
      (MapDataset.mk ("d") [0] [true] [1] 1).mask ≤ 0 := by
    norm_num [maskedSum]
  have hgood := (scale_bkg_behavior (MapDataset.mk ("d") [2] [true] [1] 1)).2 hc hb
  have hbad := (scale_bkg_behavior (MapDataset.mk ("d") [0] [true] [1] 1)).1 (Or.inl hz)
  exact ⟨⟨hc, hgood.1, hgood.2⟩, ⟨hz, hbad.1, hbad.2⟩⟩

/-! Claim C9: the fit method of the FoV background maker. -/

/-- Counterexample to C9 as stated: a background fit that fails to converge
after moving the parameter value from 1 to 5 leaves the value at 5 — the
parameters are not restored to their pre-fit state (only their frozen
flags are); the warning is logged and nothing is raised. -/
theorem fit_bkg_values_not_restored :
    (fit_bkg (fun _ => BkgFitResult.mk [5] false) [Param.mk 1 false true]).1 ≠
        [Param.mk 1 false true] ∧
      (fit_bkg (fun _ => BkgFitResult.mk [5] false) [Param.mk 1 false true]).2 ≠ [] := by
  constructor
  · intro h
    simp only [fit_bkg, List.map_cons, List.map_nil, List.zip_cons_cons,
      List.zip_nil_right, List.cons.injEq, Param.mk.injEq] at h
    exact absurd h.1.1 (by norm_num)
  · intro h
    simp only [fit_bkg, List.map_cons, List.map_nil, List.zip_cons_cons,
      List.zip_nil_right, Bool.false_eq_true, if_false] at h
    exact List.cons_ne_nil _ _ h

theorem map_value_zip_value : ∀ (l : List Param) (vs : List ℚ), vs.length = l.length →
    (((l.zip vs).map fun pv => { pv.1 with value := pv.2 }).map fun p => p.value) = vs := by
  intro l
  induction l with
  | nil =>
    intro vs h
    cases vs with
    | nil => rfl
    | cons v vs => simp at h
  | cons p l ih =>
    intro vs h
    cases vs with
    | nil => simp at h
    | cons v vs =>
      simp only [List.zip_cons_cons, List.map_cons]
      rw [ih vs (by simpa using h)]

theorem map_frozen_zip_frozen : ∀ (l : List Param) (fs : List Bool), fs.length = l.length →
    (((l.zip fs).map fun pf => { pf.1 with frozen := pf.2 }).map fun p => p.frozen) = fs := by
  intro l
  induction l with
  | nil =>
    intro fs h
    cases fs with
    | nil => rfl
    | cons f fs => simp at h
  | cons p l ih =>
    intro fs h
    cases fs with
    | nil => simp at h
    | cons f fs =>
      simp only [List.zip_cons_cons, List.map_cons]
      rw [ih fs (by simpa using h)]

theorem map_value_zip_frozen : ∀ (l : List Param) (fs : List Bool), fs.length = l.length →
    (((l.zip fs).map fun pf => { pf.1 with frozen := pf.2 }).map fun p => p.value) =
      l.map fun p => p.value := by
  intro l
  induction l with
  | nil =>
    intro fs h
    cases fs with
    | nil => rfl
    | cons f fs => simp at h
  | cons p l ih =>
    intro fs h
    cases fs with
    | nil => simp at h
    | cons f fs =>
      simp only [List.zip_cons_cons, List.map_cons]
      rw [ih fs (by simpa using h)]

/-- C9 amended: whatever the external fit engine does and whether or not it
converges, fit_bkg restores exactly the saved frozen flags, leaves the
parameter values as the fit produced them, logs the non-convergence
warning exactly when the fit did not succeed, and always returns (never
raises). -/
theorem fit_bkg_restores_frozen_flags (fitRun : List Param → BkgFitResult)
    (params : List Param)
    (hlen : (fitRun (params.map fun p =>
      if p.is_bkg then p else { p with frozen := true })).values.length = params.length) :
    ((fit_bkg fitRun params).1.map fun p => p.frozen) = (params.map fun p => p.frozen) ∧
    ((fit_bkg fitRun params).1.map fun p => p.value) =
      (fitRun (params.map fun p => if p.is_bkg then p else { p with frozen := true })).values ∧
    ((fitRun (params.map fun p =>
        if p.is_bkg then p else { p with frozen := true })).success = false →
      (fit_bkg fitRun params).2 = ["FoVBackgroundMaker failed: Fit did not converge."]) ∧
    ((fitRun (params.map fun p =>
        if p.is_bkg then p else { p with frozen := true })).success = true →
      (fit_bkg fitRun params).2 = []) := by
  have hdef : fit_bkg fitRun params =
      (((((params.map fun p => if p.is_bkg then p else { p with frozen := true }).zip
            (fitRun (params.map fun p =>
              if p.is_bkg then p else { p with frozen := true })).values).map
              fun pv => { pv.1 with value := pv.2 }).zip
            (params.map fun p => p.frozen)).map fun pf => { pf.1 with frozen := pf.2 },
        if (fitRun (params.map fun p =>
            if p.is_bkg then p else { p with frozen := true })).success then ([] : List String)
          else ["FoVBackgroundMaker failed: Fit did not converge."]) := rfl
  have hfittedlen : (((params.map fun p =>
      if p.is_bkg then p else { p with frozen := true }).zip
        (fitRun (params.map fun p =>
          if p.is_bkg then p else { p with frozen := true })).values).map
          fun pv => { pv.1 with value := pv.2 }).length = params.length := by
    rw [List.length_map, List.length_zip, List.length_map, hlen, Nat.min_self]
  refine ⟨?_, ?_, ?_, ?_⟩
  · rw [hdef]
    exact map_frozen_zip_frozen _ _ (by rw [List.length_map, hfittedlen])
  · rw [hdef]
    show ((_ : List Param).map fun p => p.value) = _
    rw [map_value_zip_frozen _ _ (by rw [List.length_map, hfittedlen])]
    exact map_value_zip_value _ _ (by rw [List.length_map]; exact hlen)
  · intro hsucc
    rw [hdef]
    show (if _ then ([] : List String) else _) = _
    rw [hsucc]
    rfl
  · intro hsucc
    rw [hdef]
    show (if _ then ([] : List String) else _) = _
    rw [hsucc]
    rfl

/-- Witness for C9 at a converging one-parameter fit. -/
theorem fit_bkg_restores_frozen_flags_witness :
    ((fit_bkg (fun _ => BkgFitResult.mk [7] true) [Param.mk 1 false true]).1.map
        fun p => p.frozen) = [false] ∧
      ((fit_bkg (fun _ => BkgFitResult.mk [7] true) [Param.mk 1 false true]).1.map
        fun p => p.value) = [7] ∧
      (fit_bkg (fun _ => BkgFitResult.mk [7] true) [Param.mk 1 false true]).2 = [] := by
  have h := fit_bkg_restores_frozen_flags (fun _ => BkgFitResult.mk [7] true)
    [Param.mk 1 false true] (by simp)
  exact ⟨h.1, h.2.1, h.2.2.2 rfl⟩

/-! Claim C10: writing a PSF3D requires both threshold meta keys. -/

/-- C10: for a PSF3D whose meta lacks LO_THRES or HI_THRES, to_hdulist (and
so write) fails with a missing-key error, because it reads the
energy_thresh_lo and energy_thresh_hi properties for the output header;
evaluation, in contrast, never touches meta, so such a PSF3D can still be
evaluated. -/
theorem to_hdulist_requires_thresholds (p : PSF3D)
    (h : metaLookup p.meta ("LO_THRES") = none ∨ metaLookup p.meta ("HI_THRES") = none) :
    (∃ e, p.to_hdulist = Except.error e) ∧
    (∀ (interp : List ℚ → List ℚ → List ℚ → List (List (List ℚ)) → ℚ → ℚ → ℚ → ℚ)
      (m2 : List (String × ℚ)) (energy offset rad : ℚ),
      PSF3D.evaluate interp { p with meta := m2 } energy offset rad =
        PSF3D.evaluate interp p energy offset rad) := by
  constructor
  · unfold PSF3D.to_hdulist PSF3D.energy_thresh_lo PSF3D.energy_thresh_hi
    cases hlo : metaLookup p.meta ("LO_THRES") with
    | none =>
      exact ⟨"KeyError: LO_THRES", rfl⟩
    | some lo =>
      have hhi : metaLookup p.meta ("HI_THRES") = none := by
        cases h with
        | inl h2 => rw [h2] at hlo; exact absurd hlo (by simp)
        | inr h2 => exact h2
      refine ⟨"KeyError: HI_THRES", ?_⟩
      rw [hhi]
      rfl
  · intro interp m2 energy offset rad
    rfl

/-- Witness for C10 at a PSF3D with empty meta. -/
theorem to_hdulist_requires_thresholds_witness :
    metaLookup ([] : List (String × ℚ)) ("LO_THRES") = none ∧
      ∃ e, (PSF3D.mk [0, 1] [0, 1] [0, 1] [[[5]]] []).to_hdulist = Except.error e :=
  ⟨rfl, (to_hdulist_requires_thresholds (PSF3D.mk [0, 1] [0, 1] [0, 1] [[[5]]] [])
      (Or.inl rfl)).1⟩

/-! Claim C3: the PSF3D construction-time shape check. -/

theorem shapeOk_spec (d : List (List (List ℚ))) (a b c : ℕ) (h : shapeOk d a b c = true) :
    d.length = a ∧ ∀ x ∈ d, x.length = b ∧ ∀ y ∈ x, y.length = c := by
  unfold shapeOk at h
  rw [Bool.and_eq_true] at h
  obtain ⟨h1, h2⟩ := h
  refine ⟨eq_of_beq h1, ?_⟩
  rw [List.all_eq_true] at h2
  intro x hx
  have h3 := h2 x hx
  rw [Bool.and_eq_true] at h3
  refine ⟨eq_of_beq h3.1, ?_⟩
  intro y hy
  have h4 := h3.2
  rw [List.all_eq_true] at h4
  exact eq_of_beq (h4 y hy)

theorem shapeOk_replicate (a b c : ℕ) (x : ℚ) :
    shapeOk (List.replicate a (List.replicate b (List.replicate c x))) a b c = true := by
  unfold shapeOk
  simp [List.all_eq_true, List.mem_replicate]

theorem shape3_replicate (a b c : ℕ) (x : ℚ) (ha : 0 < a) (hb : 0 < b) :
    shape3 (List.replicate a (List.replicate b (List.replicate c x))) = (a, b, c) := by
  obtain ⟨a0, rfl⟩ : ∃ a0, a = a0 + 1 := ⟨a - 1, by omega⟩
  obtain ⟨b0, rfl⟩ : ∃ b0, b = b0 + 1 := ⟨b - 1, by omega⟩
  unfold shape3
  simp [List.replicate_succ]

/-- C3: constructing a PSF3D succeeds exactly when the data array shape
matches the axis nbins in order (energy_true, offset, rad), and fails with
a shape-mismatch error otherwise. -/
theorem psf3d_init_shape_check (energy_axis offset_axis rad_axis : List ℚ)
    (data : List (List (List ℚ))) (meta : List (String × ℚ)) :
    (shapeOk data (nbinOfEdges energy_axis) (nbinOfEdges offset_axis)
        (nbinOfEdges rad_axis) = true →
      PSF3D.init energy_axis offset_axis rad_axis data meta =
        Except.ok (PSF3D.mk energy_axis offset_axis rad_axis data meta)) ∧
    (shapeOk data (nbinOfEdges energy_axis) (nbinOfEdges offset_axis)
        (nbinOfEdges rad_axis) = false →
      PSF3D.init energy_axis offset_axis rad_axis data meta =
        Except.error ("shape mismatch: data shape does not match axis nbins in order")) := by
  constructor
  · intro h
    unfold PSF3D.init
    rw [if_pos h]
  · intro h
    unfold PSF3D.init
    rw [if_neg (by rw [h]; exact Bool.false_ne_true)]

/-- Witness for C3: a (32, 6, 144)-shaped array is accepted against axes of
32, 6 and 144 bins, while its numpy-style transpose (shape (144, 6, 32))
is rejected with the shape-mismatch error. -/
theorem psf3d_init_shape_check_witness :
    shapeOk (List.replicate 32 (List.replicate 6 (List.replicate 144 (0 : ℚ)))) 32 6 144 =
        true ∧
      PSF3D.init (List.replicate 33 0) (List.replicate 7 0) (List.replicate 145 0)
        (List.replicate 32 (List.replicate 6 (List.replicate 144 0))) [] =
        Except.ok (PSF3D.mk (List.replicate 33 0) (List.replicate 7 0)
          (List.replicate 145 0)
          (List.replicate 32 (List.replicate 6 (List.replicate 144 0))) []) ∧
      shapeOk (transpose3 (List.replicate 32 (List.replicate 6 (List.replicate 144 (0 : ℚ)))))
        32 6 144 = false ∧
      PSF3D.init (List.replicate 33 0) (List.replicate 7 0) (List.replicate 145 0)
        (transpose3 (List.replicate 32 (List.replicate 6 (List.replicate 144 0)))) [] =
        Except.error ("shape mismatch: data shape does not match axis nbins in order") := by
  have hE : nbinOfEdges (List.replicate 33 (0 : ℚ)) = 32 := by simp [nbinOfEdges]
  have hO : nbinOfEdges (List.replicate 7 (0 : ℚ)) = 6 := by simp [nbinOfEdges]
  have hR : nbinOfEdges (List.replicate 145 (0 : ℚ)) = 144 := by simp [nbinOfEdges]
  have h1 := shapeOk_replicate 32 6 144 (0 : ℚ)
  have h3 : shapeOk (transpose3 (List.replicate 32 (List.replicate 6
      (List.replicate 144 (0 : ℚ))))) 32 6 144 = false := by
    have hlen : (transpose3 (List.replicate 32 (List.replicate 6
        (List.replicate 144 (0 : ℚ))))).length = 144 := by
      unfold transpose3
      rw [shape3_replicate 32 6 144 0 (by norm_num) (by norm_num)]
      simp
    unfold shapeOk
    rw [hlen]
    rfl
  refine ⟨h1, ?_, h3, ?_⟩
  · exact (psf3d_init_shape_check _ _ _ _ _).1 (by rw [hE, hO, hR]; exact h1)
  · exact (psf3d_init_shape_check _ _ _ _ _).2 (by rw [hE, hO, hR]; exact h3)

/-! Claim C2: FITS round trips.  First the double-transpose machinery. -/

theorem getD_range_map {α : Type} (n i : ℕ) (F : ℕ → α) (d : α) (h : i < n) :
    ((List.range n).map F).getD i d = F i := by
  rw [List.getD_eq_getElem _ _ (by simpa using h), List.getElem_map, List.getElem_range]

theorem length_transpose3 (d : List (List (List ℚ))) :
    (transpose3 d).length = (shape3 d).2.2 := by
  unfold transpose3
  rw [List.length_map, List.length_range]

theorem shape3_of_shapeOk (d : List (List (List ℚ))) (a b c : ℕ)
    (h : shapeOk d a b c = true) (ha : 0 < a) (hb : 0 < b) :
    shape3 d = (a, b, c) := by
  obtain ⟨hl, hall⟩ := shapeOk_spec d a b c h
  cases d with
  | nil =>
    simp at hl
    omega
  | cons x xs =>
    obtain ⟨hxl, hys⟩ := hall x (by simp)
    cases x with
    | nil =>
      simp at hxl
      omega
    | cons y ys =>
      unfold shape3
      simp only [List.headD_cons]
      rw [hl, hxl, hys y (by simp)]

theorem get3_transpose3 (d : List (List (List ℚ))) (a b c : ℕ)
    (h : shapeOk d a b c = true) (ha : 0 < a) (hb : 0 < b)
    (i j k : ℕ) (hi : i < a) (hj : j < b) (hk : k < c) :
    get3 (transpose3 d) k j i = get3 d i j k := by
  have hs := shape3_of_shapeOk d a b c h ha hb
  show (((transpose3 d).getD k []).getD j []).getD i 0 = get3 d i j k
  unfold transpose3
  rw [hs]
  dsimp only
  rw [getD_range_map _ _ _ _ hk]
  rw [getD_range_map _ _ _ _ hj]
  rw [getD_range_map _ _ _ _ hi]

theorem shapeOk_transpose3 (d : List (List (List ℚ))) (a b c : ℕ)
    (h : shapeOk d a b c = true) (ha : 0 < a) (hb : 0 < b) :
    shapeOk (transpose3 d) c b a = true := by
  have hs := shape3_of_shapeOk d a b c h ha hb
  unfold shapeOk transpose3
  rw [hs]
  dsimp only
  simp [List.all_eq_true, List.mem_map]

theorem transpose3_getElem (X : List (List (List ℚ))) (k : ℕ)
    (hk : k < (transpose3 X).length) :
    (transpose3 X)[k] = (List.range (shape3 X).2.1).map fun j =>
      (List.range (shape3 X).1).map fun i => get3 X i j k := by
  unfold transpose3 at hk ⊢
  rw [List.getElem_map, List.getElem_range]

theorem transpose3_transpose3 (d : List (List (List ℚ))) (a b c : ℕ)
    (h : shapeOk d a b c = true) (ha : 0 < a) (hb : 0 < b) (hc : 0 < c) :
    transpose3 (transpose3 d) = d := by
  obtain ⟨hl, hall⟩ := shapeOk_spec d a b c h
  have ht := shapeOk_transpose3 d a b c h ha hb
  have hs2 := shape3_of_shapeOk (transpose3 d) c b a ht hc hb
  have hlen1 : (transpose3 (transpose3 d)).length = a := by
    rw [length_transpose3, hs2]
  apply List.ext_getElem (by rw [hlen1, hl])
  intro i h1 h2
  have hi : i < a := by rw [hlen1] at h1; exact h1
  have hrow := transpose3_getElem (transpose3 d) i h1
  rw [hs2] at hrow
  dsimp only at hrow
  rw [hrow]
  have hleni : d[i].length = b := (hall d[i] (List.getElem_mem h2)).1
  apply List.ext_getElem (by rw [List.length_map, List.length_range, hleni])
  intro j hj1 hj2
  have hjb : j < b := by rw [List.length_map, List.length_range] at hj1; exact hj1
  rw [List.getElem_map, List.getElem_range]
  have hlenj : d[i][j].length = c :=
    (hall d[i] (List.getElem_mem h2)).2 d[i][j] (List.getElem_mem hj2)
  apply List.ext_getElem (by rw [List.length_map, List.length_range, hlenj])
  intro k hk1 hk2
  have hkc : k < c := by rw [List.length_map, List.length_range] at hk1; exact hk1
  rw [List.getElem_map, List.getElem_range]
  rw [get3_transpose3 d a b c h ha hb i j k hi hjb hkc]
  unfold get3
  rw [List.getD_eq_getElem _ _ h2, List.getD_eq_getElem _ _ hj2,
    List.getD_eq_getElem _ _ hk2]

theorem edges_columns_roundtrip (E : List ℚ) (h : 2 ≤ E.length) :
    edgesOfColumns (edgesLoColumn E) (edgesHiColumn E) = E := by
  unfold edgesOfColumns edgesLoColumn edgesHiColumn
  cases E with
  | nil => simp at h
  | cons e0 tl =>
    cases tl with
    | nil => simp at h
    | cons e1 tl2 =>
      have hne : (e0 :: e1 :: tl2 : List ℚ) ≠ [] := by simp
      simp only [List.drop_succ_cons, List.drop_zero]
      have hgl : (e1 :: tl2).getLastD 0 = (e0 :: e1 :: tl2).getLast hne := by
        rw [List.getLast_cons (by simp : e1 :: tl2 ≠ [])]
        rw [List.getLastD_eq_getLast?]
        rw [List.getLast?_eq_getLast _ (by simp : e1 :: tl2 ≠ [])]
        rfl
      rw [hgl]
      exact List.dropLast_append_getLast hne

/-- C2: writing an EnergyDependentTablePSF to its gtpsf HDU pair and
reading it back reproduces the object exactly (rad nodes, energy nodes,
exposure and data), and writing a PSF3D to its gadf table and reading it
back reproduces the axis edges (hence their centers) and the full data
cube, the on-disk (rad, offset, energy) order being undone by the explicit
transpose on each side. -/
theorem fits_roundtrip :
    (∀ p : EnergyDependentTablePSF,
      EnergyDependentTablePSF.from_hdulist (EnergyDependentTablePSF.to_hdulist p) = p) ∧
    (∀ (p : PSF3D) (lo hi : ℚ),
      shapeOk p.data (nbinOfEdges p.energyEdges) (nbinOfEdges p.offsetEdges)
        (nbinOfEdges p.radEdges) = true →
      0 < nbinOfEdges p.energyEdges →
      0 < nbinOfEdges p.offsetEdges →
      0 < nbinOfEdges p.radEdges →
      metaLookup p.meta ("LO_THRES") = some lo →
      metaLookup p.meta ("HI_THRES") = some hi →
      ∃ t p2, p.to_hdulist = Except.ok t ∧ PSF3D.from_table t = Except.ok p2 ∧
        p2.energyEdges = p.energyEdges ∧ p2.offsetEdges = p.offsetEdges ∧
        p2.radEdges = p.radEdges ∧ p2.data = p.data ∧
        axisCenters p2.energyEdges = axisCenters p.energyEdges ∧
        axisCenters p2.offsetEdges = axisCenters p.offsetEdges ∧
        axisCenters p2.radEdges = axisCenters p.radEdges) := by
  constructor
  · intro p
    rfl
  · intro p lo hi hshape hE hO hR hlo hhi
    have hlo2 : p.energy_thresh_lo = Except.ok lo := by
      unfold PSF3D.energy_thresh_lo
      rw [hlo]
    have hhi2 : p.energy_thresh_hi = Except.ok hi := by
      unfold PSF3D.energy_thresh_hi
      rw [hhi]
    have ht : p.to_hdulist = Except.ok (GadfTable.mk
        (edgesLoColumn p.energyEdges) (edgesHiColumn p.energyEdges)
        (edgesLoColumn p.offsetEdges) (edgesHiColumn p.offsetEdges)
        (edgesLoColumn p.radEdges) (edgesHiColumn p.radEdges)
        (transpose3 p.data) [("LO_THRES", lo), ("HI_THRES", hi)]) := by
      unfold PSF3D.to_hdulist
      simp only [hlo2, hhi2]
      rfl
    have hElen : 2 ≤ p.energyEdges.length := by
      unfold nbinOfEdges at hE
      omega
    have hOlen : 2 ≤ p.offsetEdges.length := by
      unfold nbinOfEdges at hO
      omega
    have hRlen : 2 ≤ p.radEdges.length := by
      unfold nbinOfEdges at hR
      omega
    have hdata : transpose3 (transpose3 p.data) = p.data :=
      transpose3_transpose3 p.data _ _ _ hshape hE hO hR
    have hft : PSF3D.from_table (GadfTable.mk
        (edgesLoColumn p.energyEdges) (edgesHiColumn p.energyEdges)
        (edgesLoColumn p.offsetEdges) (edgesHiColumn p.offsetEdges)
        (edgesLoColumn p.radEdges) (edgesHiColumn p.radEdges)
        (transpose3 p.data) [("LO_THRES", lo), ("HI_THRES", hi)]) =
        Except.ok (PSF3D.mk p.energyEdges p.offsetEdges p.radEdges p.data
          [("LO_THRES", lo), ("HI_THRES", hi)]) := by
      unfold PSF3D.from_table
      dsimp only
      rw [edges_columns_roundtrip p.energyEdges hElen,
        edges_columns_roundtrip p.offsetEdges hOlen,
        edges_columns_roundtrip p.radEdges hRlen, hdata]
      unfold PSF3D.init
      rw [if_pos hshape]
    exact ⟨_, _, ht, hft, rfl, rfl, rfl, rfl, rfl, rfl, rfl⟩

/-- Witness for C2 at a concrete energy-dependent table PSF and a concrete
one-bin-per-axis PSF3D carrying both threshold keys. -/
theorem fits_roundtrip_witness :
    (EnergyDependentTablePSF.from_hdulist (EnergyDependentTablePSF.to_hdulist
        (EnergyDependentTablePSF.mk [1] [0] [2] [[3]])) =
      EnergyDependentTablePSF.mk [1] [0] [2] [[3]]) ∧
    (shapeOk (PSF3D.mk [0, 1] [0, 1] [0, 1] [[[5]]]
          [("LO_THRES", 1), ("HI_THRES", 10)]).data 1 1 1 = true ∧
      ∃ t p2,
        (PSF3D.mk [0, 1] [0, 1] [0, 1] [[[5]]]
          [("LO_THRES", 1), ("HI_THRES", 10)]).to_hdulist = Except.ok t ∧
        PSF3D.from_table t = Except.ok p2 ∧
        p2.energyEdges = [0, 1] ∧ p2.offsetEdges = [0, 1] ∧ p2.radEdges = [0, 1] ∧
        p2.data = [[[5]]]) := by
  refine ⟨fits_roundtrip.1 (EnergyDependentTablePSF.mk [1] [0] [2] [[3]]), rfl, ?_⟩
  obtain ⟨t, p2, h1, h2, h3, h4, h5, h6, _, _, _⟩ :=
    fits_roundtrip.2 (PSF3D.mk [0, 1] [0, 1] [0, 1] [[[5]]]
      [("LO_THRES", 1), ("HI_THRES", 10)]) 1 10 rfl (by norm_num [nbinOfEdges])
      (by norm_num [nbinOfEdges]) (by norm_num [nbinOfEdges]) rfl rfl
  exact ⟨t, p2, h1, h2, h3, h4, h5, h6⟩

end Gammapy
